import Mathlib

/-!
Shallow embedding of the `apint` storage core (BitWidth, Digit, the
inline/external `ApInt` representation, constructors and the bitwise
engine).  Digits are 64-bit machine words modelled as `Nat` values below
`2 ^ 64`; width-dependent masking is explicit `% 2 ^ w` arithmetic.
Fallible Rust paths (`Result`, `unwrap`) are modelled with
`Except` / `Option`.
-/

/-- Error values of the core (spec section 7 taxonomy; only the variants
reachable from the embedded operations are carried). -/
inductive Error where
  | EmptyDigitSequence
  | InvalidZeroWidth
deriving DecidableEq

/-- Digit::BITS: the fixed bit width of one storage digit. -/
def Digit.BITS : Nat := 64

/-- Digit::ONES: the all-ones digit `0xFFFF_FFFF_FFFF_FFFF`. -/
def Digit.ONES : Nat := 2 ^ 64 - 1

/-- Population count of the low `fuel` bits of `d`
(structural fuel recursion so that concrete values evaluate by `decide`). -/
def Digit.popAux : Nat → Nat → Nat
  | 0, _ => 0
  | fuel + 1, d => d % 2 + Digit.popAux fuel (d / 2)

/-- u64::count_ones on a digit. -/
def Digit.count_ones (d : Nat) : Nat := Digit.popAux 64 d

/-- u64::count_zeros on a digit: the population count of the 64-bit
complement. -/
def Digit.count_zeros (d : Nat) : Nat := Digit.popAux 64 (Digit.ONES - d)

/-- Binary length (position of the highest set bit plus one) of the low
`fuel` bits. -/
def Digit.sizeAux : Nat → Nat → Nat
  | 0, _ => 0
  | fuel + 1, d => if d = 0 then 0 else Digit.sizeAux fuel (d / 2) + 1

/-- u64::leading_zeros on a digit. -/
def Digit.leading_zeros (d : Nat) : Nat := 64 - Digit.sizeAux 64 d

/-- Trailing-zero count of the low `fuel` bits. -/
def Digit.tzAux : Nat → Nat → Nat
  | 0, _ => 0
  | fuel + 1, d => if d % 2 = 1 then 0 else 1 + Digit.tzAux fuel (d / 2)

/-- u64::trailing_zeros on a digit. -/
def Digit.trailing_zeros (d : Nat) : Nat := Digit.tzAux 64 d

/-- Modelled from the spec: `Digit::truncated` / `Digit::truncate` is not
under `src/`.  Per section 4.2, "`truncated(width)` returns a digit with bits
at or above `width` cleared"; truncating to more than the digit width is an
invalid bit access, modelled as `none` (the Rust method returns `Result`). -/
def Digit.truncated (d : Nat) (bits : Nat) : Option Nat :=
  if bits ≤ Digit.BITS then some (d % 2 ^ bits) else none

/-- Modelled from the spec: `Digit::not_inplace` is not under `src/`.  Per
section 4.2 it is the whole-digit bitwise NOT; for a well-formed digit
`d < 2 ^ 64` the 64-bit complement is exactly `2 ^ 64 - 1 - d`. -/
def Digit.not_inplace (d : Nat) : Nat := Digit.ONES - d

/-- Modelled from the spec: `Digit::set_all` (section 4.2) sets every bit,
giving the all-ones digit. -/
def Digit.set_all (_ : Nat) : Nat := Digit.ONES

/-- Modelled from the spec: `Digit::flip_all` (section 4.2) flips every bit,
which coincides with the whole-digit NOT. -/
def Digit.flip_all (d : Nat) : Nat := Digit.not_inplace d

/-- BitWidth::excess_bits: `width % 64`, with `None` when the width is an
exact multiple of the digit width. -/
def BitWidth.excess_bits (w : Nat) : Option Nat :=
  if w % Digit.BITS = 0 then none else some (w % Digit.BITS)

/-- BitWidth::required_digits (a.k.a. `required_blocks` in the older
constructor code): `((w - 1) / 64) + 1`. -/
def BitWidth.required_digits (w : Nat) : Nat := (w - 1) / Digit.BITS + 1

/-- The tagged storage: a single inline digit or the external digit buffer
(least-significant digit first). -/
inductive ApIntData where
  | inl (digit : Nat)
  | ext (digits : List Nat)
deriving DecidableEq

/-- The `ApInt` value representation: a `BitWidth` (`len`, kept as the raw
positive integer) plus the tagged digit storage. -/
structure ApInt where
  len : Nat
  data : ApIntData
deriving DecidableEq

/-- Storage discriminator of the data field. -/
def ApIntData.isInl : ApIntData → Bool
  | .inl _ => true
  | .ext _ => false

/-- Modelled from the spec: `ApInt::as_digit_slice` is not under `src/`.
Per section 4.4 it exposes the digits backing either storage variant,
least-significant first (a single digit when inline). -/
def ApInt.as_digit_slice (a : ApInt) : List Nat :=
  match a.data with
  | .inl d => [d]
  | .ext ds => ds

/-- Width accessor (the `Width` trait). -/
def ApInt.width (a : ApInt) : Nat := a.len

/-- Modelled from the spec: `ApInt::split_most_significant_digit` is not
under `src/`.  The digits are least-significant first (section 3), so it
yields the last digit together with all lower digits. -/
def ApInt.split_most_significant_digit (a : ApInt) : Nat × List Nat :=
  (a.as_digit_slice.getLastD 0, a.as_digit_slice.dropLast)

/-- Modelled from the spec: `ApInt::modify_digits` is not under `src/`.
Per sections 4.4/4.5 it applies a digit-level operation across every digit
of either storage variant, in place. -/
def ApInt.modify_digits (a : ApInt) (f : Nat → Nat) : ApInt :=
  { a with
    data :=
      match a.data with
      | .inl d => .inl (f d)
      | .ext ds => .ext (ds.map f) }

/-- Apply `f` to the last element of a list, if any. -/
def modifyLast (f : Nat → Nat) : List Nat → List Nat
  | [] => []
  | [d] => [f d]
  | d :: rest => d :: modifyLast f rest

/-- Modelled from the spec: `ApInt::clear_unused_bits` is not under `src/`.
Per sections 3/4.5 it re-establishes the excess-bits invariant: when
`excess_bits` is `Some e` it clears every bit at or above position `e` in
the most significant digit, and otherwise does nothing. -/
def ApInt.clear_unused_bits (a : ApInt) : ApInt :=
  match BitWidth.excess_bits a.len with
  | none => a
  | some e =>
    { a with
      data :=
        match a.data with
        | .inl d => .inl (d % 2 ^ e)
        | .ext ds => .ext (modifyLast (fun d => d % 2 ^ e) ds) }

/-- Well-formedness of a value representation: positive width, storage
class matching the width (inline iff `len ≤ 64`, section 3), digit count
equal to `required_digits`, and every digit a 64-bit word. -/
def ApInt.wf (a : ApInt) : Prop :=
  0 < a.len ∧
  a.data.isInl = decide (a.len ≤ Digit.BITS) ∧
  a.as_digit_slice.length = BitWidth.required_digits a.len ∧
  ∀ d ∈ a.as_digit_slice, d < 2 ^ 64

instance (a : ApInt) : Decidable a.wf := by
  unfold ApInt.wf
  exact inferInstance

/-- The excess-bits invariant: the most significant digit is below
`2 ^ excess_bits` (equivalently, all its bits at or above `excess_bits` are
zero); widths that are exact multiples of 64 only require a well-formed
64-bit top digit. -/
def ApInt.cleared (a : ApInt) : Prop :=
  a.as_digit_slice.getLastD 0 < 2 ^ (BitWidth.excess_bits a.len).getD Digit.BITS

instance (a : ApInt) : Decidable a.cleared := by
  unfold ApInt.cleared
  exact inferInstance

/-! ### Constructors (src/apint/constructors.rs) -/

/-- ApInt::from_u8 (the `u8` argument is a `Nat` below `2 ^ 8`). -/
def ApInt.from_u8 (val : Nat) : ApInt := ⟨8, .inl val⟩

/-- ApInt::from_i8: reinterprets the two's-complement bit pattern
(`val as u8`) and forwards to `from_u8`. -/
def ApInt.from_i8 (val : Int) : ApInt := ApInt.from_u8 ((val % 2 ^ 8).toNat)

/-- ApInt::from_u16. -/
def ApInt.from_u16 (val : Nat) : ApInt := ⟨16, .inl val⟩

/-- ApInt::from_i16. -/
def ApInt.from_i16 (val : Int) : ApInt := ApInt.from_u16 ((val % 2 ^ 16).toNat)

/-- ApInt::from_u32. -/
def ApInt.from_u32 (val : Nat) : ApInt := ⟨32, .inl val⟩

/-- ApInt::from_i32. -/
def ApInt.from_i32 (val : Int) : ApInt := ApInt.from_u32 ((val % 2 ^ 32).toNat)

/-- ApInt::from_u64. -/
def ApInt.from_u64 (val : Nat) : ApInt := ⟨64, .inl val⟩

/-- ApInt::from_i64. -/
def ApInt.from_i64 (val : Int) : ApInt := ApInt.from_u64 ((val % 2 ^ 64).toNat)

/-- ApInt::from_iter: an empty digit sequence is an `EmptyDigitSequence`
error, one digit is an inline 64-bit value, `n > 1` digits become an
external value of width `n * 64`. -/
def ApInt.from_iter : List Nat → Except Error ApInt
  | [] => .error .EmptyDigitSequence
  | [d] => .ok ⟨Digit.BITS, .inl d⟩
  | ds@(_ :: _ :: _) => .ok ⟨ds.length * Digit.BITS, .ext ds⟩

/-- ApInt::from_u128: splits the value into the low and high 64-bit digit
(the `as u64` cast is the explicit `% 2 ^ 64`) and forwards to `from_iter`;
the source `expect`s the two-digit case to succeed, modelled by `Option`. -/
def ApInt.from_u128 (val : Nat) : Option ApInt :=
  match ApInt.from_iter [val % 2 ^ 64, val / 2 ^ 64 % 2 ^ 64] with
  | .ok a => some a
  | .error _ => none

/-- ApInt::from_i128. -/
def ApInt.from_i128 (val : Int) : Option ApInt :=
  ApInt.from_u128 ((val % 2 ^ 128).toNat)

/-- ApInt::repeat_digit: repeats `digit` over the required storage and
truncates the final digit with `truncate(bitwidth % 64)` (external case)
resp. `truncated(bitwidth)` (inline case); the source `unwrap`s both
truncations, modelled by `Option`. -/
def ApInt.repeat_digit (bitwidth : Nat) (digit : Nat) : Option ApInt :=
  if bitwidth ≤ Digit.BITS then
    (Digit.truncated digit bitwidth).map (fun d => ApInt.mk bitwidth (.inl d))
  else
    let req_blocks := BitWidth.required_digits bitwidth
    let last_width := bitwidth % Digit.BITS
    (Digit.truncated digit last_width).map
      (fun d => ApInt.mk bitwidth (.ext (List.replicate (req_blocks - 1) digit ++ [d])))

/-- ApInt::zero. -/
def ApInt.zero (width : Nat) : Option ApInt := ApInt.repeat_digit width 0

/-- ApInt::zeros (alias of `zero`). -/
def ApInt.zeros (width : Nat) : Option ApInt := ApInt.zero width

/-- ApInt::ones. -/
def ApInt.ones (width : Nat) : Option ApInt := ApInt.repeat_digit width Digit.ONES

/-- Numeric value of a least-significant-first digit sequence. -/
def digitsVal : List Nat → Nat
  | [] => 0
  | d :: ds => d + 2 ^ 64 * digitsVal ds

/-- Numeric value represented by an `ApInt`. -/
def ApInt.toNat (a : ApInt) : Nat := digitsVal a.as_digit_slice

/-- Modelled from the spec: `ApInt::zero_extend` is out of scope of the
core (section 1) and not under `src/`.  Sections 4.3 and 6 require
`one(width)` (built through it) to always succeed with the numeric value at
the requested width and zeroed high bits, so it is modelled as the total
re-layout of the numeric value to the target width. -/
def ApInt.zero_extend (a : ApInt) (w : Nat) : ApInt :=
  if w ≤ Digit.BITS then
    ⟨w, .inl (a.toNat % 2 ^ w)⟩
  else
    ⟨w, .ext ((List.range (BitWidth.required_digits w)).map
        (fun i => a.toNat / 2 ^ (64 * i) % 2 ^ 64))⟩

/-- ApInt::one: `from_u64(1)` zero-extended to the requested width. -/
def ApInt.one (width : Nat) : ApInt := (ApInt.from_u64 1).zero_extend width

/-! ### Bitwise operations (src/apint/bitwise.rs) -/

/-- ApInt::bitnot: complement every digit, then clear the unused bits. -/
def ApInt.bitnot (a : ApInt) : ApInt :=
  (a.modify_digits Digit.not_inplace).clear_unused_bits

/-- ApInt::into_bitnot (the value-consuming form of `bitnot`). -/
def ApInt.into_bitnot (a : ApInt) : ApInt := a.bitnot

/-- ApInt::set_all: set every digit to all-ones, then clear the unused
bits. -/
def ApInt.set_all (a : ApInt) : ApInt :=
  (a.modify_digits Digit.set_all).clear_unused_bits

/-- ApInt::flip_all: flip every digit, then clear the unused bits. -/
def ApInt.flip_all (a : ApInt) : ApInt :=
  (a.modify_digits Digit.flip_all).clear_unused_bits

/-- ApInt::is_all_set: when `excess_bits` is `Some e`, first require the
most significant digit to have exactly `e` one bits; then require every
remaining digit to be all-ones.  (The most significant digit is never
compared when `excess_bits` is `None`.) -/
def ApInt.is_all_set (a : ApInt) : Bool :=
  let msb := a.split_most_significant_digit.1
  let rest := a.split_most_significant_digit.2
  match BitWidth.excess_bits a.len with
  | some e =>
    if Digit.count_ones msb ≠ e then false
    else rest.all (fun d => d == Digit.ONES)
  | none => rest.all (fun d => d == Digit.ONES)

/-- Modelled from the spec: `ApInt::is_zero` is not under `src/`; per
section 4.5 (`is_all_unset`) it is true iff the value is numerically zero,
i.e. every digit is zero. -/
def ApInt.is_zero (a : ApInt) : Bool := a.as_digit_slice.all (fun d => d == 0)

/-- ApInt::is_all_unset (delegates to `is_zero`). -/
def ApInt.is_all_unset (a : ApInt) : Bool := a.is_zero

/-- ApInt::count_ones: the sum of the per-digit population counts. -/
def ApInt.count_ones (a : ApInt) : Nat :=
  (a.as_digit_slice.map Digit.count_ones).sum

/-- ApInt::count_zeros: the sum of the per-digit zero counts minus the
excess-bit correction `64 - excess_bits.unwrap_or(64)`. -/
def ApInt.count_zeros (a : ApInt) : Nat :=
  (a.as_digit_slice.map Digit.count_zeros).sum -
    (Digit.BITS - (BitWidth.excess_bits a.len).getD Digit.BITS)

/-- Digit scan for `leading_zeros`: accumulate per-digit leading-zero
counts (most significant digit first), stopping after the first digit whose
count is not 64. -/
def lzAcc : List Nat → Nat
  | [] => 0
  | d :: rest =>
    let l := Digit.leading_zeros d
    if l ≠ Digit.BITS then l else l + lzAcc rest

/-- ApInt::leading_zeros: scan from the most significant digit, then
subtract the excess-bit correction. -/
def ApInt.leading_zeros (a : ApInt) : Nat :=
  lzAcc a.as_digit_slice.reverse -
    (Digit.BITS - (BitWidth.excess_bits a.len).getD Digit.BITS)

/-- Digit scan for `trailing_zeros`: accumulate per-digit trailing-zero
counts (least significant digit first), stopping after the first digit
whose count is not 64. -/
def tzAcc : List Nat → Nat
  | [] => 0
  | d :: rest =>
    let t := Digit.trailing_zeros d
    if t ≠ Digit.BITS then t else t + tzAcc rest

/-- ApInt::trailing_zeros: scan from the least significant digit; when the
accumulated count reaches the width, subtract the excess-bit correction. -/
def ApInt.trailing_zeros (a : ApInt) : Nat :=
  let zeros := tzAcc a.as_digit_slice
  if zeros ≥ a.len then
    zeros - (Digit.BITS - (BitWidth.excess_bits a.len).getD Digit.BITS)
  else zeros

/-- The three whole-value mutating operations of claim C6. -/
inductive BitOp where
  | set_all
  | flip_all
  | bitnot
deriving DecidableEq

/-- Apply one whole-value operation. -/
def BitOp.apply : BitOp → ApInt → ApInt
  | .set_all, a => a.set_all
  | .flip_all, a => a.flip_all
  | .bitnot, a => a.bitnot

/-- Apply a sequence of whole-value operations, left to right. -/
def applyOps (ops : List BitOp) (a : ApInt) : ApInt :=
  ops.foldl (fun x op => op.apply x) a

example : (ApInt.ones 128).map ApInt.count_ones = some 64 := by decide
example : (ApInt.ones 128).map ApInt.is_all_set = some true := by decide
example : (ApInt.from_u64 0).is_all_set = true := by decide
example : (ApInt.from_u16 0x1b67).count_ones = 9 := by decide
example : (ApInt.ones 32).map ApInt.count_ones = some 32 := by decide
example : (ApInt.mk 1 (.inl 0)).leading_zeros = 1 := by decide
example : (ApInt.mk 1 (.inl 0)).trailing_zeros = 1 := by decide
example : (ApInt.mk 8 (.inl 4)).leading_zeros = 5 := by decide
example : (ApInt.mk 8 (.inl 4)).trailing_zeros = 2 := by decide
example : (ApInt.from_u8 0x80).trailing_zeros = 7 := by decide
example : (ApInt.mk 8 (.inl 4)).wf := by decide
example : (ApInt.mk 8 (.inl 4)).cleared := by decide
example : ApInt.from_u128 (2 ^ 100) = some ⟨128, .ext [0, 2 ^ 36]⟩ := by decide
example : (ApInt.one 5).len = 5 ∧ (ApInt.one 5).toNat = 1 := by decide
example : (ApInt.mk 8 (.inl 0x5a)).bitnot.bitnot = ApInt.mk 8 (.inl 0x5a) := by decide
example : (ApInt.mk 96 (.ext [5, 7])).set_all =
    ApInt.mk 96 (.ext [Digit.ONES, 2 ^ 32 - 1]) := by decide

/-! ### Digit-level lemmas -/

theorem Digit.popAux_zero (f : Nat) : Digit.popAux f 0 = 0 := by
  induction f with
  | zero => rfl
  | succ f ih => simp [Digit.popAux, ih]

theorem Digit.popAux_le (f d : Nat) : Digit.popAux f d ≤ f := by
  induction f generalizing d with
  | zero => simp [Digit.popAux]
  | succ f ih =>
    have h1 : d % 2 ≤ 1 := by omega
    have h2 := ih (d / 2)
    simp only [Digit.popAux]
    omega

theorem Digit.popAux_le_of_lt (f k d : Nat) (hd : d < 2 ^ k) (hk : k ≤ f) :
    Digit.popAux f d ≤ k := by
  induction f generalizing k d with
  | zero => simp [Digit.popAux]
  | succ f ih =>
    match k with
    | 0 =>
      interval_cases d
      simp [Digit.popAux_zero]
    | k + 1 =>
      have hdiv : d / 2 < 2 ^ k := by
        have : (2 : Nat) ^ (k + 1) = 2 ^ k * 2 := by rw [pow_succ]
        omega
      have h1 : d % 2 ≤ 1 := by omega
      have h2 := ih k (d / 2) hdiv (by omega)
      simp only [Digit.popAux]
      omega

theorem Digit.popAux_compl (f d : Nat) (hd : d < 2 ^ f) :
    Digit.popAux f (2 ^ f - 1 - d) = f - Digit.popAux f d := by
  induction f generalizing d with
  | zero => simp [Digit.popAux]
  | succ f ih =>
    have hp : (2 : Nat) ^ (f + 1) = 2 * 2 ^ f := by rw [pow_succ]; ring
    have hpos : 0 < 2 ^ f := Nat.pos_pow_of_pos f (by omega)
    have hxmod : (2 ^ (f + 1) - 1 - d) % 2 = 1 - d % 2 := by omega
    have hxdiv : (2 ^ (f + 1) - 1 - d) / 2 = 2 ^ f - 1 - d / 2 := by omega
    have hdd : d / 2 < 2 ^ f := by omega
    have hle := Digit.popAux_le f (d / 2)
    have h1 : d % 2 ≤ 1 := by omega
    simp only [Digit.popAux, hxmod, hxdiv, ih (d / 2) hdd]
    omega

theorem Digit.count_zeros_eq (d : Nat) (hd : d < 2 ^ 64) :
    Digit.count_zeros d = 64 - Digit.count_ones d := by
  have h := Digit.popAux_compl 64 d hd
  simpa [Digit.count_zeros, Digit.count_ones, Digit.ONES] using h

theorem Digit.count_ones_le (d : Nat) (hd : d < 2 ^ 64) : Digit.count_ones d ≤ 64 :=
  Digit.popAux_le_of_lt 64 64 d hd (by omega)

theorem Digit.count_ones_le_of_lt (d e : Nat) (hd : d < 2 ^ e) (he : e ≤ 64) :
    Digit.count_ones d ≤ e :=
  Digit.popAux_le_of_lt 64 e d hd he

theorem Digit.sizeAux_zero (f : Nat) : Digit.sizeAux f 0 = 0 := by
  cases f <;> simp [Digit.sizeAux]

theorem Digit.sizeAux_le_of_lt (f k d : Nat) (hd : d < 2 ^ k) (hk : k ≤ f) :
    Digit.sizeAux f d ≤ k := by
  induction f generalizing k d with
  | zero => simp [Digit.sizeAux]
  | succ f ih =>
    match k with
    | 0 =>
      interval_cases d
      simp [Digit.sizeAux_zero]
    | k + 1 =>
      by_cases h0 : d = 0
      · simp [h0, Digit.sizeAux_zero]
      · have hdiv : d / 2 < 2 ^ k := by
          have : (2 : Nat) ^ (k + 1) = 2 ^ k * 2 := by rw [pow_succ]
          omega
        have h2 := ih k (d / 2) hdiv (by omega)
        simp only [Digit.sizeAux, if_neg h0]
        omega

theorem Digit.sizeAux_pos (f d : Nat) (hd : d ≠ 0) : 0 < Digit.sizeAux (f + 1) d := by
  simp [Digit.sizeAux, if_neg hd]

theorem Digit.leading_zeros_zero : Digit.leading_zeros 0 = 64 := by decide

theorem Digit.leading_zeros_le (d : Nat) : Digit.leading_zeros d ≤ 64 :=
  Nat.sub_le _ _

theorem Digit.leading_zeros_eq_64_iff (d : Nat) (hd : d < 2 ^ 64) :
    Digit.leading_zeros d = 64 ↔ d = 0 := by
  constructor
  · intro h
    by_contra h0
    have hpos : 0 < Digit.sizeAux 64 d := Digit.sizeAux_pos 63 d h0
    have hle : Digit.sizeAux 64 d ≤ 64 := Digit.sizeAux_le_of_lt 64 64 d hd (by omega)
    simp only [Digit.leading_zeros] at h
    omega
  · rintro rfl
    exact Digit.leading_zeros_zero

theorem Digit.leading_zeros_ge (d e : Nat) (hd : d < 2 ^ e) (he : e ≤ 64) :
    64 - e ≤ Digit.leading_zeros d := by
  have h := Digit.sizeAux_le_of_lt 64 e d hd he
  simp only [Digit.leading_zeros]
  omega

theorem Digit.tzAux_zero (f : Nat) : Digit.tzAux f 0 = f := by
  induction f with
  | zero => rfl
  | succ f ih => simp [Digit.tzAux, ih]; omega

theorem Digit.tzAux_le (f d : Nat) : Digit.tzAux f d ≤ f := by
  induction f generalizing d with
  | zero => simp [Digit.tzAux]
  | succ f ih =>
    have h := ih (d / 2)
    simp only [Digit.tzAux]
    split <;> omega

theorem Digit.trailing_zeros_zero : Digit.trailing_zeros 0 = 64 :=
  Digit.tzAux_zero 64

theorem Digit.tzAux_lt_sizeAux (f d : Nat) (h0 : d ≠ 0) (hd : d < 2 ^ f) :
    Digit.tzAux f d + 1 ≤ Digit.sizeAux f d := by
  induction f generalizing d with
  | zero =>
    interval_cases d
    omega
  | succ f ih =>
    have hdiv : d / 2 < 2 ^ f := by
      have : (2 : Nat) ^ (f + 1) = 2 ^ f * 2 := by rw [pow_succ]
      omega
    by_cases hodd : d % 2 = 1
    · have : 0 < Digit.sizeAux (f + 1) d := Digit.sizeAux_pos f d h0
      simp only [Digit.tzAux, if_pos hodd]
      omega
    · have hne : d / 2 ≠ 0 := by omega
      have h := ih (d / 2) hne hdiv
      simp only [Digit.tzAux, if_neg hodd, Digit.sizeAux, if_neg h0]
      omega

theorem Digit.trailing_zeros_le_of_lt (d e : Nat) (h0 : d ≠ 0) (hd : d < 2 ^ e)
    (he : e ≤ 64) : Digit.trailing_zeros d + 1 ≤ e := by
  have hd64 : d < 2 ^ 64 := lt_of_lt_of_le hd (Nat.pow_le_pow_right (by omega) he)
  have h1 := Digit.tzAux_lt_sizeAux 64 d h0 hd64
  have h2 := Digit.sizeAux_le_of_lt 64 e d hd he
  simp only [Digit.trailing_zeros]
  omega

theorem Digit.trailing_zeros_eq_64_iff (d : Nat) (hd : d < 2 ^ 64) :
    Digit.trailing_zeros d = 64 ↔ d = 0 := by
  constructor
  · intro h
    by_contra h0
    have := Digit.trailing_zeros_le_of_lt d 64 h0 hd (by omega)
    omega
  · rintro rfl
    exact Digit.trailing_zeros_zero

theorem Digit.lz_add_tz_le (d : Nat) (h0 : d ≠ 0) (hd : d < 2 ^ 64) :
    Digit.leading_zeros d + Digit.trailing_zeros d ≤ 63 := by
  have h1 := Digit.tzAux_lt_sizeAux 64 d h0 hd
  have h2 := Digit.sizeAux_le_of_lt 64 64 d hd (by omega)
  simp only [Digit.leading_zeros, Digit.trailing_zeros]
  omega

/-! ### List-level lemmas about the digit scans -/

theorem lzAcc_cons_eq (d : Nat) (rest : List Nat) :
    lzAcc (d :: rest) =
      if Digit.leading_zeros d = Digit.BITS then Digit.BITS + lzAcc rest
      else Digit.leading_zeros d := by
  simp only [lzAcc]
  by_cases h : Digit.leading_zeros d = Digit.BITS
  · rw [if_neg (by simp [h]), if_pos h, h]
  · rw [if_pos h, if_neg h]

theorem tzAcc_cons_eq (d : Nat) (rest : List Nat) :
    tzAcc (d :: rest) =
      if Digit.trailing_zeros d = Digit.BITS then Digit.BITS + tzAcc rest
      else Digit.trailing_zeros d := by
  simp only [tzAcc]
  by_cases h : Digit.trailing_zeros d = Digit.BITS
  · rw [if_neg (by simp [h]), if_pos h, h]
  · rw [if_pos h, if_neg h]

theorem lzAcc_singleton (d : Nat) : lzAcc [d] = Digit.leading_zeros d := by
  rw [lzAcc_cons_eq]
  split
  · next h => simp [lzAcc, h, Digit.BITS]
  · rfl

theorem lzAcc_cons_ge (d : Nat) (rest : List Nat) :
    Digit.leading_zeros d ≤ lzAcc (d :: rest) := by
  rw [lzAcc_cons_eq]
  have := Digit.leading_zeros_le d
  split
  · next h => simp only [Digit.BITS] at *; omega
  · omega

theorem lzAcc_le (l : List Nat) : lzAcc l ≤ 64 * l.length := by
  induction l with
  | nil => simp [lzAcc]
  | cons d rest ih =>
    have hlz := Digit.leading_zeros_le d
    rw [lzAcc_cons_eq]
    simp only [List.length_cons, Digit.BITS]
    split <;> omega

theorem lzAcc_all_zero (l : List Nat) (h : ∀ x ∈ l, x = 0) :
    lzAcc l = 64 * l.length := by
  induction l with
  | nil => simp [lzAcc]
  | cons d rest ih =>
    have hd : d = 0 := h d (by simp)
    subst hd
    have hrest : lzAcc rest = 64 * rest.length := ih (fun x hx => h x (by simp [hx]))
    rw [lzAcc_cons_eq, if_pos (by rw [Digit.leading_zeros_zero]; rfl), hrest]
    simp only [List.length_cons, Digit.BITS]
    ring

theorem lzAcc_append_allzero (xs ys : List Nat) (h : ∀ x ∈ xs, x = 0) :
    lzAcc (xs ++ ys) = 64 * xs.length + lzAcc ys := by
  induction xs with
  | nil => simp
  | cons d rest ih =>
    have hd : d = 0 := h d (by simp)
    subst hd
    have hrest := ih (fun x hx => h x (by simp [hx]))
    rw [List.cons_append, lzAcc_cons_eq, if_pos (by rw [Digit.leading_zeros_zero]; rfl),
      hrest]
    simp only [List.length_cons, Digit.BITS]
    ring

theorem lzAcc_append_left (xs ys : List Nat) (hx : ∃ x ∈ xs, x ≠ 0)
    (hwf : ∀ x ∈ xs, x < 2 ^ 64) : lzAcc (xs ++ ys) = lzAcc xs := by
  induction xs with
  | nil => simp at hx
  | cons d rest ih =>
    rw [List.cons_append, lzAcc_cons_eq, lzAcc_cons_eq]
    by_cases hd : Digit.leading_zeros d = Digit.BITS
    · have hd0 : d = 0 := by
        have h64 : Digit.leading_zeros d = 64 := by simpa [Digit.BITS] using hd
        exact (Digit.leading_zeros_eq_64_iff d (hwf d (by simp))).1 h64
      obtain ⟨x, hxmem, hxne⟩ := hx
      have hxrest : x ∈ rest := by
        rcases List.mem_cons.1 hxmem with h | h
        · exact absurd (h ▸ hd0) hxne
        · exact h
      rw [if_pos hd, if_pos hd,
        ih ⟨x, hxrest, hxne⟩ (fun y hy => hwf y (by simp [hy]))]
    · rw [if_neg hd, if_neg hd]

theorem tzAcc_all_zero (l : List Nat) (h : ∀ x ∈ l, x = 0) :
    tzAcc l = 64 * l.length := by
  induction l with
  | nil => simp [tzAcc]
  | cons d rest ih =>
    have hd : d = 0 := h d (by simp)
    subst hd
    have hrest : tzAcc rest = 64 * rest.length := ih (fun x hx => h x (by simp [hx]))
    rw [tzAcc_cons_eq, if_pos (by rw [Digit.trailing_zeros_zero]; rfl), hrest]
    simp only [List.length_cons, Digit.BITS]
    ring

theorem getLastD_of_ne_nil (l : List Nat) (a b : Nat) (h : l ≠ []) :
    l.getLastD a = l.getLastD b := by
  cases l with
  | nil => simp at h
  | cons x xs =>
    cases xs with
    | nil => rfl
    | cons y ys => simp only [List.getLastD_cons]

theorem getLastD_mem (l : List Nat) (h : l ≠ []) : l.getLastD 0 ∈ l := by
  induction l with
  | nil => simp at h
  | cons x xs ih =>
    cases xs with
    | nil => simp
    | cons y ys =>
      rw [List.getLastD_cons, getLastD_of_ne_nil (y :: ys) x 0 (by simp)]
      exact List.mem_cons_of_mem x (ih (by simp))

theorem tzAcc_bound (l : List Nat) (E : Nat) (hE1 : 1 ≤ E) (hE2 : E ≤ 64)
    (hwf : ∀ x ∈ l, x < 2 ^ 64) (hlast : l.getLastD 0 < 2 ^ E)
    (hnz : ∃ x ∈ l, x ≠ 0) : tzAcc l + 1 ≤ 64 * (l.length - 1) + E := by
  induction l with
  | nil => simp at hnz
  | cons d rest ih =>
    rw [tzAcc_cons_eq]
    cases rest with
    | nil =>
      have hd0 : d ≠ 0 := by
        obtain ⟨x, hxmem, hxne⟩ := hnz
        simp only [List.mem_singleton] at hxmem
        exact hxmem ▸ hxne
      have hdlt : d < 2 ^ E := by simpa [List.getLastD_cons] using hlast
      have htz := Digit.trailing_zeros_le_of_lt d E hd0 hdlt hE2
      rw [if_neg (by simp only [Digit.BITS]; omega)]
      simp only [List.length_cons, List.length_nil]
      omega
    | cons r rs =>
      have hlast2 : (r :: rs).getLastD 0 < 2 ^ E := by
        simp only [List.getLastD_cons] at hlast ⊢
        exact hlast
      by_cases hd0 : d = 0
      · subst hd0
        obtain ⟨x, hxmem, hxne⟩ := hnz
        have hxrest : x ∈ r :: rs := by
          rcases List.mem_cons.1 hxmem with h | h
          · exact absurd h.symm (fun hh => hxne hh.symm)
          · exact h
        have hih := ih (fun y hy => hwf y (by simp [hy])) hlast2 ⟨x, hxrest, hxne⟩
        rw [if_pos (by rw [Digit.trailing_zeros_zero]; rfl)]
        simp only [List.length_cons, Digit.BITS] at *
        omega
      · have htz64 : Digit.trailing_zeros d ≠ 64 := by
          intro h
          exact hd0 ((Digit.trailing_zeros_eq_64_iff d (hwf d (by simp))).1 h)
        have htzle := Digit.tzAux_le 64 d
        rw [if_neg (by simpa [Digit.BITS] using htz64)]
        simp only [List.length_cons]
        simp only [Digit.trailing_zeros] at htz64 htzle ⊢
        omega

theorem lz_tz_key (l : List Nat) (hwf : ∀ x ∈ l, x < 2 ^ 64)
    (hnz : ∃ x ∈ l, x ≠ 0) :
    lzAcc l.reverse + tzAcc l + 1 ≤ 64 * l.length := by
  induction l with
  | nil => simp at hnz
  | cons d rest ih =>
    have hrevwf : ∀ x ∈ rest.reverse, x < 2 ^ 64 := by
      intro x hx
      exact hwf x (by simp [List.mem_reverse.1 hx])
    rw [List.reverse_cons, tzAcc_cons_eq]
    by_cases hd0 : d = 0
    · subst hd0
      obtain ⟨x, hxmem, hxne⟩ := hnz
      have hxrest : x ∈ rest := by
        rcases List.mem_cons.1 hxmem with h | h
        · exact absurd h.symm (fun hh => hxne hh.symm)
        · exact h
      have hlz : lzAcc (rest.reverse ++ [0]) = lzAcc rest.reverse :=
        lzAcc_append_left _ _ ⟨x, List.mem_reverse.2 hxrest, hxne⟩ hrevwf
      have hih := ih (fun y hy => hwf y (by simp [hy])) ⟨x, hxrest, hxne⟩
      rw [hlz, if_pos (by rw [Digit.trailing_zeros_zero]; rfl)]
      simp only [List.length_cons, Digit.BITS] at *
      omega
    · have hdwf : d < 2 ^ 64 := hwf d (by simp)
      have htz64 : Digit.trailing_zeros d ≠ 64 := by
        intro h
        exact hd0 ((Digit.trailing_zeros_eq_64_iff d hdwf).1 h)
      have hsum := Digit.lz_add_tz_le d hd0 hdwf
      rw [if_neg (by simpa [Digit.BITS] using htz64)]
      by_cases hrest : ∃ x ∈ rest, x ≠ 0
      · have hlz : lzAcc (rest.reverse ++ [d]) = lzAcc rest.reverse := by
          apply lzAcc_append_left
          · obtain ⟨x, hxmem, hxne⟩ := hrest
            exact ⟨x, List.mem_reverse.2 hxmem, hxne⟩
          · exact hrevwf
        have hlzle := lzAcc_le rest.reverse
        rw [hlz]
        simp only [List.length_cons, List.length_reverse] at *
        omega
      · have hallz : ∀ x ∈ rest.reverse, x = 0 := by
          intro x hx
          by_contra hxne
          exact hrest ⟨x, List.mem_reverse.1 hx, hxne⟩
        rw [lzAcc_append_allzero _ _ hallz, lzAcc_singleton, List.length_reverse]
        simp only [List.length_cons]
        omega

/-! ### Width and slice structure lemmas -/

theorem BitWidth.excessD_bounds (w : Nat) (hw : 0 < w) :
    1 ≤ (BitWidth.excess_bits w).getD 64 ∧
    (BitWidth.excess_bits w).getD 64 ≤ 64 ∧
    64 * (BitWidth.required_digits w - 1) + (BitWidth.excess_bits w).getD 64 = w := by
  simp only [BitWidth.excess_bits, BitWidth.required_digits, Digit.BITS]
  by_cases h : w % 64 = 0
  · rw [if_pos h]
    simp only [Option.getD_none]
    omega
  · rw [if_neg h]
    simp only [Option.getD_some]
    omega

theorem BitWidth.required_digits_pos (w : Nat) : 0 < BitWidth.required_digits w := by
  simp only [BitWidth.required_digits, Digit.BITS]
  omega

theorem ApInt.slice_ne_nil (a : ApInt) (h : a.wf) : a.as_digit_slice ≠ [] := by
  have hlen := h.2.2.1
  intro hnil
  have := BitWidth.required_digits_pos a.len
  rw [hnil] at hlen
  simp at hlen
  omega

theorem reverse_eq_last_cons (l : List Nat) (h : l ≠ []) :
    l.reverse = l.getLastD 0 :: l.dropLast.reverse := by
  have hsplit := List.dropLast_append_getLast h
  have hlast : l.getLastD 0 = l.getLast h := by
    rw [List.getLastD_eq_getLast?, List.getLast?_eq_getLast l h]
    rfl
  calc l.reverse = (l.dropLast ++ [l.getLast h]).reverse := by rw [hsplit]
    _ = [l.getLast h].reverse ++ l.dropLast.reverse := List.reverse_append _ _
    _ = l.getLastD 0 :: l.dropLast.reverse := by
        rw [hlast]
        rfl

/-- C10 helper: the leading-zero scan accumulates at least the top digit's
leading zeros, which the invariant bounds below by `64 - excess_bits`. -/
theorem lzAcc_reverse_ge (a : ApInt) (hwf : a.wf) (hcl : a.cleared) :
    64 - (BitWidth.excess_bits a.len).getD 64 ≤ lzAcc a.as_digit_slice.reverse := by
  have hpos := hwf.1
  obtain ⟨hE1, hE2, -⟩ := BitWidth.excessD_bounds a.len hpos
  rw [reverse_eq_last_cons _ (a.slice_ne_nil hwf)]
  have h1 := lzAcc_cons_ge (a.as_digit_slice.getLastD 0) a.as_digit_slice.dropLast.reverse
  have h2 : 64 - (BitWidth.excess_bits a.len).getD 64 ≤
      Digit.leading_zeros (a.as_digit_slice.getLastD 0) := by
    apply Digit.leading_zeros_ge
    · exact hcl
    · exact hE2
  omega

/-- Zero values: both scans cover every digit and the correction brings the
count back to exactly the width. -/
theorem counts_of_zero_val (a : ApInt) (hwf : a.wf) (hz : ∀ x ∈ a.as_digit_slice, x = 0) :
    a.leading_zeros = a.len ∧ a.trailing_zeros = a.len := by
  have hpos := hwf.1
  have hlen := hwf.2.2.1
  obtain ⟨hE1, hE2, hsum⟩ := BitWidth.excessD_bounds a.len hpos
  have hn := BitWidth.required_digits_pos a.len
  have hzrev : ∀ x ∈ a.as_digit_slice.reverse, x = 0 := fun x hx =>
    hz x (List.mem_reverse.1 hx)
  have hlz : lzAcc a.as_digit_slice.reverse = 64 * a.as_digit_slice.length := by
    rw [lzAcc_all_zero _ hzrev, List.length_reverse]
  have htz : tzAcc a.as_digit_slice = 64 * a.as_digit_slice.length :=
    tzAcc_all_zero _ hz
  constructor
  · simp only [ApInt.leading_zeros, hlz, hlen, Digit.BITS]
    omega
  · simp only [ApInt.trailing_zeros, htz, hlen, Digit.BITS]
    rw [if_pos (by omega)]
    omega

/-- Nonzero values: the two scans together never reach the width. -/
theorem counts_of_nonzero_val (a : ApInt) (hwf : a.wf) (hcl : a.cleared)
    (hnz : ∃ x ∈ a.as_digit_slice, x ≠ 0) :
    a.leading_zeros + a.trailing_zeros < a.len := by
  have hpos := hwf.1
  have hlen := hwf.2.2.1
  have hdig := hwf.2.2.2
  obtain ⟨hE1, hE2, hsum⟩ := BitWidth.excessD_bounds a.len hpos
  have hn := BitWidth.required_digits_pos a.len
  have hkey := lz_tz_key a.as_digit_slice hdig hnz
  have hlzge := lzAcc_reverse_ge a hwf hcl
  have hlast : a.as_digit_slice.getLastD 0 < 2 ^ (BitWidth.excess_bits a.len).getD 64 :=
    hcl
  have htzb := tzAcc_bound a.as_digit_slice _ hE1 hE2 hdig hlast hnz
  have htzlt : tzAcc a.as_digit_slice < a.len := by
    rw [hlen] at htzb
    omega
  rw [hlen] at hkey
  simp only [ApInt.leading_zeros, ApInt.trailing_zeros, Digit.BITS]
  rw [if_neg (by omega)]
  omega

/-! ### Counting lemmas and claims C5, C10, C4 -/

theorem sum_count_zeros_add_ones (l : List Nat) (h : ∀ x ∈ l, x < 2 ^ 64) :
    (l.map Digit.count_zeros).sum + (l.map Digit.count_ones).sum = 64 * l.length := by
  induction l with
  | nil => simp
  | cons d rest ih =>
    have hd : d < 2 ^ 64 := h d (by simp)
    have h1 := Digit.count_zeros_eq d hd
    have h2 := Digit.count_ones_le d hd
    have h3 := ih (fun x hx => h x (by simp [hx]))
    simp only [List.map_cons, List.sum_cons, List.length_cons]
    omega

theorem sum_count_zeros_ge_last (l : List Nat) (hne : l ≠ []) :
    Digit.count_zeros (l.getLastD 0) ≤ (l.map Digit.count_zeros).sum := by
  apply List.single_le_sum (fun x _ => Nat.zero_le x)
  exact List.mem_map_of_mem Digit.count_zeros (getLastD_mem l hne)

/-- C5: for every well-formed value satisfying the excess-bits invariant —
inline or external, including widths that are exact multiples of 64 where
the correction is zero — `count_ones + count_zeros` is exactly the width. -/
theorem count_ones_add_count_zeros (a : ApInt) (hwf : a.wf) (hcl : a.cleared) :
    a.count_ones + a.count_zeros = a.len := by
  have hpos := hwf.1
  have hlen := hwf.2.2.1
  have hdig := hwf.2.2.2
  have hne := a.slice_ne_nil hwf
  obtain ⟨hE1, hE2, hsum⟩ := BitWidth.excessD_bounds a.len hpos
  have hn := BitWidth.required_digits_pos a.len
  have hall := sum_count_zeros_add_ones a.as_digit_slice hdig
  have hco_last : Digit.count_ones (a.as_digit_slice.getLastD 0) ≤
      (BitWidth.excess_bits a.len).getD 64 :=
    Digit.count_ones_le_of_lt _ _ hcl hE2
  have hcz_last : Digit.count_zeros (a.as_digit_slice.getLastD 0) =
      64 - Digit.count_ones (a.as_digit_slice.getLastD 0) :=
    Digit.count_zeros_eq _ (hdig _ (getLastD_mem _ hne))
  have hge := sum_count_zeros_ge_last a.as_digit_slice hne
  rw [hlen] at hall
  simp only [ApInt.count_ones, ApInt.count_zeros, Digit.BITS]
  omega

/-- C5 witness at a concrete external two-digit value of width 96. -/
theorem count_ones_add_count_zeros_witness :
    (ApInt.mk 96 (ApIntData.ext [5, 7])).count_ones +
      (ApInt.mk 96 (ApIntData.ext [5, 7])).count_zeros =
      (ApInt.mk 96 (ApIntData.ext [5, 7])).len :=
  count_ones_add_count_zeros (ApInt.mk 96 (ApIntData.ext [5, 7]))
    (by decide) (by decide)

/-- C10: the three excess-bit corrections never underflow: the raw zero
count of `count_zeros` and the accumulated scan of `leading_zeros` are both
at least `64 - excess_bits`, and in `trailing_zeros` the correction is only
subtracted once the accumulated count reaches the width, where it is also
at least `64 - excess_bits`. -/
theorem excess_corrections_no_underflow (a : ApInt) (hwf : a.wf) (hcl : a.cleared) :
    (64 - (BitWidth.excess_bits a.len).getD 64 ≤
      (a.as_digit_slice.map Digit.count_zeros).sum) ∧
    (64 - (BitWidth.excess_bits a.len).getD 64 ≤ lzAcc a.as_digit_slice.reverse) ∧
    (a.len ≤ tzAcc a.as_digit_slice →
      64 - (BitWidth.excess_bits a.len).getD 64 ≤ tzAcc a.as_digit_slice) := by
  have hpos := hwf.1
  have hlen := hwf.2.2.1
  have hdig := hwf.2.2.2
  have hne := a.slice_ne_nil hwf
  obtain ⟨hE1, hE2, hsum⟩ := BitWidth.excessD_bounds a.len hpos
  have hn := BitWidth.required_digits_pos a.len
  refine ⟨?_, lzAcc_reverse_ge a hwf hcl, ?_⟩
  · have hco_last : Digit.count_ones (a.as_digit_slice.getLastD 0) ≤
        (BitWidth.excess_bits a.len).getD 64 :=
      Digit.count_ones_le_of_lt _ _ hcl hE2
    have hcz_last : Digit.count_zeros (a.as_digit_slice.getLastD 0) =
        64 - Digit.count_ones (a.as_digit_slice.getLastD 0) :=
      Digit.count_zeros_eq _ (hdig _ (getLastD_mem _ hne))
    have hge := sum_count_zeros_ge_last a.as_digit_slice hne
    omega
  · intro hbig
    by_cases hnz : ∃ x ∈ a.as_digit_slice, x ≠ 0
    · have htzb := tzAcc_bound a.as_digit_slice _ hE1 hE2 hdig hcl hnz
      rw [hlen] at htzb
      omega
    · have hz : ∀ x ∈ a.as_digit_slice, x = 0 := by
        intro x hx
        by_contra hxne
        exact hnz ⟨x, hx, hxne⟩
      have := tzAcc_all_zero a.as_digit_slice hz
      rw [hlen] at this
      omega

/-- C10 witness at a concrete external two-digit value of width 96. -/
theorem excess_corrections_no_underflow_witness :
    (64 - (BitWidth.excess_bits (ApInt.mk 96 (ApIntData.ext [5, 7])).len).getD 64 ≤
      ((ApInt.mk 96 (ApIntData.ext [5, 7])).as_digit_slice.map Digit.count_zeros).sum) ∧
    (64 - (BitWidth.excess_bits (ApInt.mk 96 (ApIntData.ext [5, 7])).len).getD 64 ≤
      lzAcc (ApInt.mk 96 (ApIntData.ext [5, 7])).as_digit_slice.reverse) ∧
    ((ApInt.mk 96 (ApIntData.ext [5, 7])).len ≤
        tzAcc (ApInt.mk 96 (ApIntData.ext [5, 7])).as_digit_slice →
      64 - (BitWidth.excess_bits (ApInt.mk 96 (ApIntData.ext [5, 7])).len).getD 64 ≤
        tzAcc (ApInt.mk 96 (ApIntData.ext [5, 7])).as_digit_slice) :=
  excess_corrections_no_underflow (ApInt.mk 96 (ApIntData.ext [5, 7]))
    (by decide) (by decide)

/-- C4 counterexample: the claim `leading_zeros + trailing_zeros ≤ width,
with equality iff zero` fails on the code at the 1-bit zero value, which is
well formed, satisfies the invariant, is zero, and reports
`leading_zeros = trailing_zeros = 1`, summing to 2 > 1. -/
theorem lz_add_tz_claim_fails_at_zero :
    (ApInt.mk 1 (ApIntData.inl 0)).wf ∧
    (ApInt.mk 1 (ApIntData.inl 0)).cleared ∧
    (ApInt.mk 1 (ApIntData.inl 0)).is_zero = true ∧
    ¬((ApInt.mk 1 (ApIntData.inl 0)).leading_zeros +
        (ApInt.mk 1 (ApIntData.inl 0)).trailing_zeros ≤
      (ApInt.mk 1 (ApIntData.inl 0)).len) := by
  refine ⟨by decide, by decide, by decide, by decide⟩

/-- C4 (amended): for every well-formed value satisfying the excess-bits
invariant, a nonzero value has `leading_zeros + trailing_zeros < width`
(so equality with the width never occurs), while the zero value reports
`leading_zeros = trailing_zeros = width`, so its sum is `2 * width`. -/
theorem lz_add_tz_amended (a : ApInt) (hwf : a.wf) (hcl : a.cleared) :
    (a.is_zero = true → a.leading_zeros = a.len ∧ a.trailing_zeros = a.len) ∧
    (a.is_zero = false → a.leading_zeros + a.trailing_zeros < a.len) := by
  constructor
  · intro hz
    apply counts_of_zero_val a hwf
    intro x hx
    have := (List.all_eq_true.1 hz) x hx
    simpa using this
  · intro hz
    apply counts_of_nonzero_val a hwf hcl
    obtain ⟨x, hx, hxne⟩ := List.all_eq_false.1 hz
    exact ⟨x, hx, by simpa using hxne⟩

/-- C4 witness at the nonzero inline value `4` of width 8 (leading 5,
trailing 2, summing to 7 < 8). -/
theorem lz_add_tz_amended_witness :
    ((ApInt.mk 8 (ApIntData.inl 4)).is_zero = true →
      (ApInt.mk 8 (ApIntData.inl 4)).leading_zeros = (ApInt.mk 8 (ApIntData.inl 4)).len ∧
      (ApInt.mk 8 (ApIntData.inl 4)).trailing_zeros = (ApInt.mk 8 (ApIntData.inl 4)).len) ∧
    ((ApInt.mk 8 (ApIntData.inl 4)).is_zero = false →
      (ApInt.mk 8 (ApIntData.inl 4)).leading_zeros +
        (ApInt.mk 8 (ApIntData.inl 4)).trailing_zeros <
        (ApInt.mk 8 (ApIntData.inl 4)).len) :=
  lz_add_tz_amended (ApInt.mk 8 (ApIntData.inl 4)) (by decide) (by decide)

/-! ### Normalization structure lemmas and claims C6, C7 -/

theorem modifyLast_nil (f : Nat → Nat) : modifyLast f [] = [] := rfl

theorem modifyLast_singleton (f : Nat → Nat) (d : Nat) :
    modifyLast f [d] = [f d] := rfl

theorem modifyLast_cons_cons (f : Nat → Nat) (x y : Nat) (t : List Nat) :
    modifyLast f (x :: y :: t) = x :: modifyLast f (y :: t) := rfl

theorem modifyLast_ne_nil (f : Nat → Nat) (l : List Nat) (h : l ≠ []) :
    modifyLast f l ≠ [] := by
  cases l with
  | nil => simp at h
  | cons x t =>
    cases t <;> simp [modifyLast_singleton, modifyLast_cons_cons]

theorem modifyLast_cons_ne (f : Nat → Nat) (x : Nat) (t : List Nat) (h : t ≠ []) :
    modifyLast f (x :: t) = x :: modifyLast f t := by
  cases t with
  | nil => simp at h
  | cons y ys => exact modifyLast_cons_cons f x y ys

theorem getLastD_modifyLast (f : Nat → Nat) (l : List Nat) (h : l ≠ []) :
    (modifyLast f l).getLastD 0 = f (l.getLastD 0) := by
  induction l with
  | nil => simp at h
  | cons x xs ih =>
    cases xs with
    | nil => simp [modifyLast_singleton, List.getLastD_cons]
    | cons y ys =>
      rw [modifyLast_cons_cons, List.getLastD_cons, List.getLastD_cons]
      rw [getLastD_of_ne_nil (modifyLast f (y :: ys)) x 0 (by
        cases ys <;> simp [modifyLast_singleton, modifyLast_cons_cons])]
      rw [getLastD_of_ne_nil (y :: ys) x 0 (by simp)]
      exact ih (by simp)

theorem ApInt.modify_digits_len (a : ApInt) (f : Nat → Nat) :
    (a.modify_digits f).len = a.len := rfl

theorem ApInt.clear_unused_bits_len (a : ApInt) :
    a.clear_unused_bits.len = a.len := by
  unfold ApInt.clear_unused_bits
  split
  · rfl
  · rfl

theorem BitOp.apply_len (op : BitOp) (a : ApInt) : (op.apply a).len = a.len := by
  cases op <;>
    simp [BitOp.apply, ApInt.set_all, ApInt.flip_all, ApInt.bitnot,
      ApInt.clear_unused_bits_len, ApInt.modify_digits_len]

theorem ApInt.clear_unused_bits_cleared (a : ApInt) (h : a.len % 64 ≠ 0) :
    a.clear_unused_bits.cleared := by
  have hx : BitWidth.excess_bits a.len = some (a.len % 64) := by
    simp only [BitWidth.excess_bits, Digit.BITS]
    rw [if_neg h]
  have hpow : 0 < 2 ^ (a.len % 64) := Nat.pos_pow_of_pos _ (by omega)
  have hlen : a.clear_unused_bits.len = a.len := a.clear_unused_bits_len
  unfold ApInt.cleared
  rw [hlen, hx]
  simp only [Option.getD_some]
  unfold ApInt.clear_unused_bits
  rw [hx]
  cases hd : a.data with
  | inl d =>
    simp only [ApInt.as_digit_slice, hd, List.getLastD_cons]
    exact Nat.mod_lt d hpow
  | ext ds =>
    simp only [ApInt.as_digit_slice, hd]
    cases ds with
    | nil => simp [modifyLast_nil, hpow]
    | cons x xs =>
      rw [getLastD_modifyLast _ _ (by simp)]
      exact Nat.mod_lt _ hpow

theorem BitOp.apply_cleared (op : BitOp) (a : ApInt) (h : a.len % 64 ≠ 0) :
    (op.apply a).cleared := by
  cases op <;>
  · show ((a.modify_digits _).clear_unused_bits).cleared
    exact ApInt.clear_unused_bits_cleared _ (by rw [ApInt.modify_digits_len]; exact h)

theorem applyOps_nil (a : ApInt) : applyOps [] a = a := rfl

theorem applyOps_cons (op : BitOp) (ops : List BitOp) (a : ApInt) :
    applyOps (op :: ops) a = applyOps ops (op.apply a) := rfl

theorem applyOps_len (ops : List BitOp) (a : ApInt) :
    (applyOps ops a).len = a.len := by
  induction ops generalizing a with
  | nil => rfl
  | cons op ops ih => rw [applyOps_cons, ih, BitOp.apply_len]

theorem applyOps_cleared (ops : List BitOp) (a : ApInt) (h : a.len % 64 ≠ 0)
    (hcl : a.cleared) : (applyOps ops a).cleared := by
  induction ops generalizing a with
  | nil => exact hcl
  | cons op ops ih =>
    rw [applyOps_cons]
    exact ih (op.apply a) (by rw [BitOp.apply_len]; exact h)
      (BitOp.apply_cleared op a h)

theorem testBit_false_of_lt (x e j : Nat) (hx : x < 2 ^ e) (hej : e ≤ j) :
    Nat.testBit x j = false :=
  Nat.testBit_lt_two_pow (lt_of_lt_of_le hx (Nat.pow_le_pow_right (by omega) hej))

/-- C6: for any width that is not a multiple of 64 and any value satisfying
the excess-bits invariant, after any sequence of `set_all`, `flip_all` and
`bitnot` applications every bit of the most significant digit at or above
position `excess_bits` is zero. -/
theorem excess_invariant_after_ops (ops : List BitOp) (a : ApInt)
    (hmod : a.len % 64 ≠ 0) (hcl : a.cleared) :
    ∀ j, (BitWidth.excess_bits a.len).getD 64 ≤ j →
      Nat.testBit ((applyOps ops a).as_digit_slice.getLastD 0) j = false := by
  intro j hj
  have hres : (applyOps ops a).cleared := applyOps_cleared ops a hmod hcl
  have hlen := applyOps_len ops a
  unfold ApInt.cleared at hres
  rw [hlen] at hres
  exact testBit_false_of_lt _ _ _ hres hj

/-- C6 witness: after `bitnot` then `set_all` on an 8-bit value, bit 8 of
the (single) digit is zero. -/
theorem excess_invariant_after_ops_witness :
    Nat.testBit
      ((applyOps [BitOp.bitnot, BitOp.set_all]
          (ApInt.mk 8 (ApIntData.inl 3))).as_digit_slice.getLastD 0) 8 = false :=
  excess_invariant_after_ops [BitOp.bitnot, BitOp.set_all]
    (ApInt.mk 8 (ApIntData.inl 3)) (by decide) (by decide) 8 (by decide)

theorem Digit.not_mod_pow (d e : Nat) (he : e ≤ 64) (hd : d < 2 ^ e) :
    Digit.not_inplace d % 2 ^ e = 2 ^ e - 1 - d := by
  have hAB : (2 : Nat) ^ 64 = 2 ^ e * 2 ^ (64 - e) := by
    rw [← pow_add]
    congr 1
    omega
  have hA : 0 < 2 ^ e := Nat.pos_pow_of_pos _ (by omega)
  have hB : 0 < 2 ^ (64 - e) := Nat.pos_pow_of_pos _ (by omega)
  obtain ⟨B, hBeq⟩ : ∃ B, 2 ^ (64 - e) = B + 1 := ⟨2 ^ (64 - e) - 1, by omega⟩
  have hmul : 2 ^ e * (B + 1) = 2 ^ e * B + 2 ^ e := by ring
  have heq : Digit.not_inplace d = 2 ^ e * B + (2 ^ e - 1 - d) := by
    simp only [Digit.not_inplace, Digit.ONES, hAB, hBeq]
    omega
  rw [heq, Nat.mul_add_mod, Nat.mod_eq_of_lt (by omega)]

theorem Digit.not_not (d : Nat) (hd : d < 2 ^ 64) :
    Digit.not_inplace (Digit.not_inplace d) = d := by
  simp only [Digit.not_inplace, Digit.ONES]
  omega

theorem map_not_not (l : List Nat) (h : ∀ x ∈ l, x < 2 ^ 64) :
    (l.map Digit.not_inplace).map Digit.not_inplace = l := by
  induction l with
  | nil => rfl
  | cons d rest ih =>
    simp only [List.map_cons, Digit.not_not d (h d (by simp)),
      ih (fun x hx => h x (by simp [hx]))]

theorem bitnot_list_involution (e : Nat) (_he1 : 1 ≤ e) (he2 : e ≤ 64)
    (l : List Nat) (hwf : ∀ x ∈ l, x < 2 ^ 64) (hlast : l.getLastD 0 < 2 ^ e) :
    modifyLast (fun d => d % 2 ^ e)
      ((modifyLast (fun d => d % 2 ^ e) (l.map Digit.not_inplace)).map
        Digit.not_inplace) = l := by
  induction l with
  | nil => rfl
  | cons d rest ih =>
    cases rest with
    | nil =>
      have hd : d < 2 ^ e := by simpa [List.getLastD_cons] using hlast
      simp only [List.map_cons, List.map_nil, modifyLast_singleton]
      rw [Digit.not_mod_pow d e he2 hd]
      have h2 : 2 ^ e - 1 - d < 2 ^ e := by
        have : 0 < 2 ^ e := Nat.pos_pow_of_pos _ (by omega)
        omega
      rw [Digit.not_mod_pow _ e he2 h2]
      have : 0 < 2 ^ e := Nat.pos_pow_of_pos _ (by omega)
      congr 1
      omega
    | cons r rs =>
      have hlast2 : (r :: rs).getLastD 0 < 2 ^ e := by
        simp only [List.getLastD_cons] at hlast ⊢
        exact hlast
      have hd64 : d < 2 ^ 64 := hwf d (by simp)
      have hih := ih (fun x hx => hwf x (by simp [hx])) hlast2
      simp only [List.map_cons] at hih ⊢
      rw [modifyLast_cons_cons]
      simp only [List.map_cons]
      rw [Digit.not_not d hd64]
      rw [modifyLast_cons_ne _ _ _ (by
        intro hX
        rw [List.map_eq_nil_iff] at hX
        exact modifyLast_ne_nil _ _ (by simp) hX)]
      congr 1

theorem BitWidth.excess_bits_some (w e : Nat) (h : BitWidth.excess_bits w = some e) :
    e = w % 64 ∧ 1 ≤ e ∧ e ≤ 64 := by
  simp only [BitWidth.excess_bits, Digit.BITS] at h
  by_cases h0 : w % 64 = 0
  · rw [if_pos h0] at h
    cases h
  · rw [if_neg h0] at h
    have he : w % 64 = e := Option.some.inj h
    have := Nat.mod_lt w (show 0 < 64 by omega)
    omega

/-- C7: bitwise NOT is an involution: applying `bitnot` twice to any
well-formed value satisfying the excess-bits invariant gives back exactly
the same value (same width, identical digit sequence). -/
theorem bitnot_bitnot (a : ApInt) (hwf : a.wf) (hcl : a.cleared) :
    a.bitnot.bitnot = a := by
  obtain ⟨len, data⟩ := a
  have hdig : ∀ d ∈ (ApInt.mk len data).as_digit_slice, d < 2 ^ 64 := hwf.2.2.2
  cases hx : BitWidth.excess_bits len with
  | none =>
    cases data with
    | inl d =>
      have hd : d < 2 ^ 64 := hdig d (by simp [ApInt.as_digit_slice])
      simp only [ApInt.bitnot, ApInt.modify_digits, ApInt.clear_unused_bits, hx]
      simp [Digit.not_not d hd]
    | ext ds =>
      have hds : ∀ x ∈ ds, x < 2 ^ 64 := fun x hx2 =>
        hdig x (by simpa [ApInt.as_digit_slice] using hx2)
      simp only [ApInt.bitnot, ApInt.modify_digits, ApInt.clear_unused_bits, hx]
      simp [map_not_not ds hds]
  | some e =>
    obtain ⟨-, he1, he2⟩ := BitWidth.excess_bits_some len e hx
    cases data with
    | inl d =>
      have hd : d < 2 ^ e := by
        have h := hcl
        simp only [ApInt.cleared, ApInt.as_digit_slice, List.getLastD_cons, hx,
          Option.getD_some] at h
        exact h
      have hlt : 2 ^ e - 1 - d < 2 ^ e := by
        have : 0 < 2 ^ e := Nat.pos_pow_of_pos _ (by omega)
        omega
      simp only [ApInt.bitnot, ApInt.modify_digits, ApInt.clear_unused_bits, hx]
      simp only [Digit.not_mod_pow d e he2 hd, Digit.not_mod_pow _ e he2 hlt]
      have : 0 < 2 ^ e := Nat.pos_pow_of_pos _ (by omega)
      congr 2
      omega
    | ext ds =>
      have hds : ∀ x ∈ ds, x < 2 ^ 64 := fun x hx2 =>
        hdig x (by simpa [ApInt.as_digit_slice] using hx2)
      have hlast : ds.getLastD 0 < 2 ^ e := by
        have h := hcl
        simp only [ApInt.cleared, ApInt.as_digit_slice, hx, Option.getD_some] at h
        exact h
      simp only [ApInt.bitnot, ApInt.modify_digits, ApInt.clear_unused_bits, hx]
      simp only [bitnot_list_involution e he1 he2 ds hds hlast]

/-- C7 witness at the inline value `0x5a` of width 8. -/
theorem bitnot_bitnot_witness :
    (ApInt.mk 8 (ApIntData.inl 0x5a)).bitnot.bitnot = ApInt.mk 8 (ApIntData.inl 0x5a) :=
  bitnot_bitnot (ApInt.mk 8 (ApIntData.inl 0x5a)) (by decide) (by decide)

/-! ### Constructor claims C1, C2, C8, C9 and the is_all_set claim C3 -/

/-- C1 (code evaluation at the failing input): `ones(128)` truncates its
final digit with `truncate(128 % 64) = truncate(0)`, which clears the whole
top digit: the result is `[2^64-1, 0]`, `count_ones` is 64 — not 128 as
the claim requires — while `is_all_set` still reports `true`. -/
theorem ones_128_top_digit_cleared :
    ApInt.ones 128 = some (ApInt.mk 128 (ApIntData.ext [Digit.ONES, 0])) ∧
    (ApInt.ones 128).map ApInt.count_ones = some 64 ∧
    (ApInt.ones 128).map ApInt.is_all_set = some true := by
  refine ⟨by decide, by decide, by decide⟩

/-- C2: for every valid (positive) width — including widths below 64 and
exact multiples of 64 — `zero`, `ones` and `one` return normally: the
fallible digit truncations inside `repeat_digit` always succeed, and `one`
yields a value of the requested width. -/
theorem constructors_total (w : Nat) (_hw : 0 < w) :
    (ApInt.zero w).isSome = true ∧ (ApInt.ones w).isSome = true ∧
    (ApInt.one w).len = w := by
  have hsome : ∀ digit : Nat, (ApInt.repeat_digit w digit).isSome = true := by
    intro digit
    unfold ApInt.repeat_digit Digit.truncated
    by_cases h : w ≤ Digit.BITS
    · rw [if_pos h, if_pos h]
      rfl
    · have hmod : w % Digit.BITS ≤ Digit.BITS := by
        simp only [Digit.BITS]
        omega
      rw [if_neg h]
      simp [hmod]
  refine ⟨hsome 0, hsome Digit.ONES, ?_⟩
  unfold ApInt.one ApInt.zero_extend
  by_cases h : w ≤ Digit.BITS
  · rw [if_pos h]
  · rw [if_neg h]

/-- C2 witness at the exact-multiple-of-64 external width 128. -/
theorem constructors_total_witness :
    (ApInt.zero 128).isSome = true ∧ (ApInt.ones 128).isSome = true ∧
    (ApInt.one 128).len = 128 :=
  constructors_total 128 (by decide)

/-- C3 (code evaluation at the failing input): at width 64 — where
`excess_bits` is `None` — `is_all_set` never compares the most significant
digit, so the well-formed 64-bit zero value reports `is_all_set = true`
although its `count_ones` is 0, refuting the claimed equivalence with
`count_ones == width`. -/
theorem is_all_set_ignores_msb_at_64 :
    (ApInt.from_u64 0).wf ∧ (ApInt.from_u64 0).cleared ∧
    (ApInt.from_u64 0).len = 64 ∧
    (ApInt.from_u64 0).is_all_set = true ∧
    (ApInt.from_u64 0).count_ones = 0 := by
  refine ⟨by decide, by decide, by decide, by decide, by decide⟩

/-- C8: `from_iter` fails with `EmptyDigitSequence` on the empty sequence,
returns an inline 64-bit value for exactly one digit, and an external value
of width `n * 64` keeping the digits least-significant first for `n > 1`. -/
theorem from_iter_contract :
    (ApInt.from_iter [] = Except.error Error.EmptyDigitSequence) ∧
    (∀ d : Nat, ApInt.from_iter [d] = Except.ok (ApInt.mk 64 (ApIntData.inl d))) ∧
    (∀ ds : List Nat, 2 ≤ ds.length →
      ApInt.from_iter ds = Except.ok (ApInt.mk (ds.length * 64) (ApIntData.ext ds))) := by
  refine ⟨rfl, fun d => rfl, ?_⟩
  intro ds hlen
  match ds with
  | [] => simp at hlen
  | [d] => simp at hlen
  | d1 :: d2 :: rest => rfl

/-- C8 witness: a three-digit sequence gives a width-192 external value;
a one-digit sequence gives an inline 64-bit value. -/
theorem from_iter_contract_witness :
    ApInt.from_iter [3, 4, 5] =
      Except.ok (ApInt.mk (([3, 4, 5] : List Nat).length * 64) (ApIntData.ext [3, 4, 5])) ∧
    ApInt.from_iter [7] = Except.ok (ApInt.mk 64 (ApIntData.inl 7)) :=
  ⟨from_iter_contract.2.2 [3, 4, 5] (by decide), from_iter_contract.2.1 7⟩

theorem inline_wf_cleared (w v : Nat) (h1 : 0 < w) (h2 : w ≤ 64)
    (hv : v < 2 ^ (BitWidth.excess_bits w).getD 64) :
    (ApInt.mk w (ApIntData.inl v)).wf ∧ (ApInt.mk w (ApIntData.inl v)).cleared := by
  obtain ⟨hE1, hE2, hsum⟩ := BitWidth.excessD_bounds w h1
  have hv64 : v < 2 ^ 64 := lt_of_lt_of_le hv (Nat.pow_le_pow_right (by omega) hE2)
  refine ⟨⟨h1, ?_, ?_, ?_⟩, hv⟩
  · show true = decide (w ≤ Digit.BITS)
    simp [Digit.BITS, h2]
  · simp only [ApInt.as_digit_slice, List.length_cons, List.length_nil,
      BitWidth.required_digits, Digit.BITS]
    omega
  · intro d hd
    simp only [ApInt.as_digit_slice, List.mem_singleton] at hd
    omega

/-- C9: every native-integer constructor establishes the excess-bits
invariant at construction: the unsigned constructors store the value as the
one digit with all bits at or above the declared width zero, the signed
ones store the two's-complement bit pattern (`from_i8 (-1)` stores exactly
`0xFF`), and `from_u128` stores the low 64 bits in digit 0 and the high 64
bits in digit 1 of a two-digit external value. -/
theorem native_ctor_invariant :
    (∀ v : Nat, v < 2 ^ 8 → (ApInt.from_u8 v).data = ApIntData.inl v ∧
      (ApInt.from_u8 v).wf ∧ (ApInt.from_u8 v).cleared) ∧
    (∀ i : Int, (ApInt.from_i8 i).wf ∧ (ApInt.from_i8 i).cleared) ∧
    (ApInt.from_i8 (-1)).data = ApIntData.inl 0xFF ∧
    (∀ v : Nat, v < 2 ^ 16 → (ApInt.from_u16 v).data = ApIntData.inl v ∧
      (ApInt.from_u16 v).wf ∧ (ApInt.from_u16 v).cleared) ∧
    (∀ i : Int, (ApInt.from_i16 i).wf ∧ (ApInt.from_i16 i).cleared) ∧
    (∀ v : Nat, v < 2 ^ 32 → (ApInt.from_u32 v).data = ApIntData.inl v ∧
      (ApInt.from_u32 v).wf ∧ (ApInt.from_u32 v).cleared) ∧
    (∀ i : Int, (ApInt.from_i32 i).wf ∧ (ApInt.from_i32 i).cleared) ∧
    (∀ v : Nat, v < 2 ^ 128 →
      ApInt.from_u128 v =
        some (ApInt.mk 128 (ApIntData.ext [v % 2 ^ 64, v / 2 ^ 64 % 2 ^ 64])) ∧
      (ApInt.mk 128 (ApIntData.ext [v % 2 ^ 64, v / 2 ^ 64 % 2 ^ 64])).wf ∧
      (ApInt.mk 128 (ApIntData.ext [v % 2 ^ 64, v / 2 ^ 64 % 2 ^ 64])).cleared) := by
  have hpow64 : (0 : Nat) < 2 ^ 64 := Nat.pos_pow_of_pos _ (by omega)
  refine ⟨?_, ?_, by decide, ?_, ?_, ?_, ?_, ?_⟩
  · intro v hv
    exact ⟨rfl, inline_wf_cleared 8 v (by omega) (by omega) hv⟩
  · intro i
    have : (i % 2 ^ 8).toNat < 2 ^ 8 := by omega
    exact inline_wf_cleared 8 _ (by omega) (by omega) this
  · intro v hv
    exact ⟨rfl, inline_wf_cleared 16 v (by omega) (by omega) hv⟩
  · intro i
    have : (i % 2 ^ 16).toNat < 2 ^ 16 := by omega
    exact inline_wf_cleared 16 _ (by omega) (by omega) this
  · intro v hv
    exact ⟨rfl, inline_wf_cleared 32 v (by omega) (by omega) hv⟩
  · intro i
    have : (i % 2 ^ 32).toNat < 2 ^ 32 := by omega
    exact inline_wf_cleared 32 _ (by omega) (by omega) this
  · intro v hv
    refine ⟨rfl, ⟨?_, ?_, ?_, ?_⟩, ?_⟩
    · show (0 : Nat) < 128
      omega
    · show (ApIntData.ext [v % 2 ^ 64, v / 2 ^ 64 % 2 ^ 64]).isInl =
        decide ((128 : Nat) ≤ Digit.BITS)
      simp [ApIntData.isInl, Digit.BITS]
    · show ([v % 2 ^ 64, v / 2 ^ 64 % 2 ^ 64] : List Nat).length =
        BitWidth.required_digits 128
      simp [BitWidth.required_digits, Digit.BITS]
    · intro d hd
      simp only [ApInt.as_digit_slice, List.mem_cons, List.mem_singleton,
        List.not_mem_nil, or_false] at hd
      rcases hd with h | h <;> subst h <;> exact Nat.mod_lt _ hpow64
    · show v / 2 ^ 64 % 2 ^ 64 < 2 ^ (BitWidth.excess_bits (128 : Nat)).getD 64
      have : (BitWidth.excess_bits (128 : Nat)).getD 64 = 64 := by decide
      rw [this]
      exact Nat.mod_lt _ hpow64

/-- C9 witness at `from_u8 0x8f`, `from_i8 (-1)` and
`from_u128 (2 ^ 100 + 5)`. -/
theorem native_ctor_invariant_witness :
    ((ApInt.from_u8 0x8f).data = ApIntData.inl 0x8f ∧
      (ApInt.from_u8 0x8f).wf ∧ (ApInt.from_u8 0x8f).cleared) ∧
    ((ApInt.from_i8 (-1)).wf ∧ (ApInt.from_i8 (-1)).cleared) ∧
    (ApInt.from_u128 (2 ^ 100 + 5) =
      some (ApInt.mk 128 (ApIntData.ext
        [(2 ^ 100 + 5) % 2 ^ 64, (2 ^ 100 + 5) / 2 ^ 64 % 2 ^ 64])) ∧
      (ApInt.mk 128 (ApIntData.ext
        [(2 ^ 100 + 5) % 2 ^ 64, (2 ^ 100 + 5) / 2 ^ 64 % 2 ^ 64])).wf ∧
      (ApInt.mk 128 (ApIntData.ext
        [(2 ^ 100 + 5) % 2 ^ 64, (2 ^ 100 + 5) / 2 ^ 64 % 2 ^ 64])).cleared) :=
  ⟨native_ctor_invariant.1 0x8f (by decide),
   native_ctor_invariant.2.1 (-1),
   native_ctor_invariant.2.2.2.2.2.2.2 (2 ^ 100 + 5) (by decide)⟩
